import Mathlib

/-!
Shallow embedding of the chained hash table in `src/buggy_hashtable/main.cpp`.

Machine `uint64_t` arithmetic is modelled on `Nat` with explicit `% 2 ^ 64`
where overflow matters (multiplication, the capacity shift, the `mask`
subtraction).  Pointer-linked chains (`Entry* next`) are modelled as Lean
lists, head first; the bucket array `Entry** ht` is a `List (List Entry)`.
-/

namespace BuggyHT

/-- The modulus of `uint64_t` arithmetic. -/
def U64 : Nat := 2 ^ 64

/-- `hashKey` from main.cpp (MurmurHash64A specialised to one 8-byte key):
each C multiplication is reduced `% 2 ^ 64`; xor and logical right shift
never leave the 64-bit range. -/
def hashKey (k : Nat) : Nat :=
  let m : Nat := 0xc6a4a7935bd1e995
  let r : Nat := 47
  let h0 : Nat := 0x8445d61a4e774912 ^^^ ((8 * m) % U64)
  let k1 : Nat := (k * m) % U64
  let k2 : Nat := k1 ^^^ (k1 >>> r)
  let k3 : Nat := (k2 * m) % U64
  let h1 : Nat := h0 ^^^ k3
  let h2 : Nat := (h1 * m) % U64
  let h3 : Nat := h2 ^^^ (h2 >>> r)
  let h4 : Nat := (h3 * m) % U64
  h4 ^^^ (h4 >>> r)

/-- `Hashtable::Entry` without the `next` pointer: chains are Lean lists. -/
structure Entry where
  key : Nat
  value : Nat
deriving DecidableEq, Repr

/-- The `Hashtable` struct: `htSize`, `mask`, and the bucket array `ht`
(each bucket is the chain hanging off that slot, head first). -/
structure Hashtable where
  htSize : Nat
  mask : Nat
  ht : List (List Entry)
deriving DecidableEq, Repr

/-- Bit length computed by repeated halving, with explicit fuel so that the
recursion is structural (`bitlen 64 n` is the bit length of any `n < 2 ^ 64`). -/
def bitlen : Nat → Nat → Nat
  | 0, _ => 0
  | fuel + 1, n => if n = 0 then 0 else bitlen fuel (n / 2) + 1

/-- `__builtin_clzl` on a nonzero 64-bit value: 64 minus the bit length. -/
def clz64 (n : Nat) : Nat := 64 - bitlen 64 n

/-- The constructor `Hashtable::Hashtable(uint64_t size)`:
`htSize = 1 << (64 - clzl(size))` (the shift modelled modulo `2 ^ 64`),
`mask = htSize - 1` in `uint64_t` arithmetic, and a zero-filled bucket
array (`allocZeros`), i.e. every bucket empty. -/
def mkHashtable (size : Nat) : Hashtable :=
  let cap := (2 ^ (64 - clz64 size)) % U64
  { htSize := cap
    mask := (cap + (U64 - 1)) % U64
    ht := List.replicate cap [] }

/-- The bucket index `hashKey(key) & mask` used by lookup, insert, erase. -/
def bIdx (t : Hashtable) (key : Nat) : Nat := hashKey key &&& t.mask

/-- The chain stored at the bucket of `key` (out-of-range reads give `[]`;
under the table invariant the index is always in range). -/
def bucket (t : Hashtable) (key : Nat) : List Entry := t.ht.getD (bIdx t key) []

/-- The chain walk of `Hashtable::lookup`: first entry with matching key. -/
def chainLookup (key : Nat) : List Entry → Option Entry
  | [] => none
  | e :: es => if e.key == key then some e else chainLookup key es

/-- `Hashtable::lookup(uint64_t key)`. -/
def Hashtable.lookup (t : Hashtable) (key : Nat) : Option Entry :=
  chainLookup key (bucket t key)

/-- The in-place `e->value = value` of `Hashtable::insert` on the first
entry of the chain whose key matches. -/
def chainUpdate (key value : Nat) : List Entry → List Entry
  | [] => []
  | e :: es =>
    if e.key == key then { e with value := value } :: es
    else e :: chainUpdate key value es

/-- `Hashtable::insert(uint64_t key, uint64_t value)`: returns the C
`bool` result paired with the table after the call. -/
def Hashtable.insert (t : Hashtable) (key value : Nat) : Bool × Hashtable :=
  match t.lookup key with
  | some _ =>
    (false, { t with ht := t.ht.set (bIdx t key) (chainUpdate key value (bucket t key)) })
  | none =>
    (true, { t with ht := t.ht.set (bIdx t key) ({ key := key, value := value } :: bucket t key) })

/-- The `prev`/`lead` walk of `Hashtable::erase` over the part of the chain
after the head: remove the first entry with matching key, `none` when the
walk exhausts the chain. -/
def chainEraseAux (key : Nat) : List Entry → Option (List Entry)
  | [] => none
  | e :: es =>
    if e.key == key then some es
    else
      match chainEraseAux key es with
      | none => none
      | some es2 => some (e :: es2)

/-- `Hashtable::erase(uint64_t key)`: empty bucket, head match, and the
`prev`/`lead` walk, exactly as in main.cpp. -/
def Hashtable.erase (t : Hashtable) (key : Nat) : Bool × Hashtable :=
  match bucket t key with
  | [] => (false, t)
  | head :: rest =>
    if head.key == key then
      (true, { t with ht := t.ht.set (bIdx t key) rest })
    else
      match chainEraseAux key rest with
      | none => (false, t)
      | some rest2 => (true, { t with ht := t.ht.set (bIdx t key) (head :: rest2) })

/-- One driver operation: insert, lookup (state-preserving), or erase. -/
inductive Op where
  | ins (key value : Nat)
  | get (key : Nat)
  | del (key : Nat)
deriving DecidableEq, Repr

/-- Apply one operation to the table, keeping only the state (lookup is
read-only, so it leaves the table untouched). -/
def applyOp (t : Hashtable) : Op → Hashtable
  | .ins k v => (t.insert k v).2
  | .get _ => t
  | .del k => (t.erase k).2

/-- Run a sequence of operations from left to right. -/
def runOps (t : Hashtable) (ops : List Op) : Hashtable := ops.foldl applyOp t

/-- Whether an operation inserts the given key. -/
def opInsertsKey (k : Nat) : Op → Bool
  | .ins k2 _ => k2 == k
  | _ => false

/-! ### List.getD helpers -/

theorem getD_of_len_le {α : Type} {l : List α} {i : Nat} {d : α} (h : l.length ≤ i) :
    l.getD i d = d := by
  induction l generalizing i with
  | nil => simp
  | cons a l ih =>
    cases i with
    | zero => simp at h
    | succ n => simpa using ih (by simpa using h)

theorem getD_set_self {α : Type} {l : List α} {i : Nat} {a d : α} (h : i < l.length) :
    (l.set i a).getD i d = a := by
  induction l generalizing i with
  | nil => simp at h
  | cons x l ih =>
    cases i with
    | zero => simp
    | succ n => simpa using ih (by simpa using h)

theorem getD_set_ne {α : Type} {l : List α} {i j : Nat} {a d : α} (h : i ≠ j) :
    (l.set i a).getD j d = l.getD j d := by
  induction l generalizing i j with
  | nil => simp
  | cons x l ih =>
    cases i with
    | zero =>
      cases j with
      | zero => exact absurd rfl h
      | succ m => simp
    | succ n =>
      cases j with
      | zero => simp
      | succ m => simpa using ih (by omega)

theorem getD_replicate {α : Type} {n i : Nat} {c : α} :
    (List.replicate n c).getD i c = c := by
  induction n generalizing i with
  | zero => simp
  | succ m ih =>
    cases i with
    | zero => simp [List.replicate]
    | succ j => simp only [List.replicate, List.getD_cons_succ]; exact ih

theorem getD_eq_get {α : Type} {l : List α} {i : Nat} {d : α} (h : i < l.length) :
    l.getD i d = l.get ⟨i, h⟩ := by
  induction l generalizing i with
  | nil => simp at h
  | cons x l ih =>
    cases i with
    | zero => simp
    | succ n => simpa using ih (by simpa using h)

/-! ### Chain walk lemmas -/

theorem chainLookup_eq_none {key : Nat} {l : List Entry} :
    chainLookup key l = none ↔ ∀ e ∈ l, e.key ≠ key := by
  induction l with
  | nil => simp [chainLookup]
  | cons a l ih =>
    by_cases h : a.key = key
    · simp [chainLookup, beq_iff_eq, h]
    · simp [chainLookup, beq_iff_eq, h, ih]

theorem chainLookup_eq_some {key : Nat} {l : List Entry} {e : Entry} :
    chainLookup key l = some e ↔
      e.key = key ∧ ∃ l1 l2, l = l1 ++ e :: l2 ∧ ∀ x ∈ l1, x.key ≠ key := by
  induction l with
  | nil =>
    simp only [chainLookup]
    constructor
    · intro h; cases h
    · rintro ⟨-, l1, l2, heq, -⟩
      exact absurd heq (by simp)
  | cons a l ih =>
    by_cases h : a.key = key
    · rw [chainLookup, if_pos (show (a.key == key) = true from by simpa [beq_iff_eq] using h)]
      constructor
      · rintro heq
        injection heq with heq
        subst heq
        exact ⟨h, [], l, rfl, by simp⟩
      · rintro ⟨hek, l1, l2, heq, hl1⟩
        cases l1 with
        | nil =>
          injection heq with h1 h2
          rw [h1]
        | cons b l1 =>
          injection heq with h1 h2
          exact absurd (h1 ▸ h) (hl1 b (by simp))
    · rw [chainLookup, if_neg (by simpa [beq_iff_eq] using h), ih]
      constructor
      · rintro ⟨hek, l1, l2, heq, hl1⟩
        refine ⟨hek, a :: l1, l2, by simp [heq], ?_⟩
        intro x hx
        rcases List.mem_cons.1 hx with hx | hx
        · subst hx; exact h
        · exact hl1 x hx
      · rintro ⟨hek, l1, l2, heq, hl1⟩
        cases l1 with
        | nil =>
          injection heq with h1 h2
          exact absurd (h1 ▸ hek) h
        | cons b l1 =>
          injection heq with h1 h2
          exact ⟨hek, l1, l2, h2, fun x hx => hl1 x (by simp [hx])⟩

theorem chainLookup_key {key : Nat} {l : List Entry} {e : Entry}
    (h : chainLookup key l = some e) : e.key = key :=
  (chainLookup_eq_some.1 h).1

theorem chainLookup_mem {key : Nat} {l : List Entry} {e : Entry}
    (h : chainLookup key l = some e) : e ∈ l := by
  rcases (chainLookup_eq_some.1 h).2 with ⟨l1, l2, heq, -⟩
  subst heq
  simp

theorem chainUpdate_map_key {key value : Nat} {l : List Entry} :
    (chainUpdate key value l).map Entry.key = l.map Entry.key := by
  induction l with
  | nil => rfl
  | cons a l ih =>
    by_cases h : a.key = key
    · simp [chainUpdate, beq_iff_eq, h]
    · simp [chainUpdate, beq_iff_eq, h, ih]

theorem chainLookup_chainUpdate_self {key v : Nat} {l : List Entry} {e : Entry}
    (h : chainLookup key l = some e) :
    chainLookup key (chainUpdate key v l) = some { key := e.key, value := v } := by
  induction l with
  | nil => simp [chainLookup] at h
  | cons a l ih =>
    by_cases hk : a.key = key
    · rw [chainLookup, if_pos (by simpa [beq_iff_eq] using hk)] at h
      injection h with h
      subst h
      simp [chainUpdate, chainLookup, beq_iff_eq, hk]
    · rw [chainLookup, if_neg (by simpa [beq_iff_eq] using hk)] at h
      simp [chainUpdate, chainLookup, beq_iff_eq, hk, ih h]

theorem chainLookup_eq_none_of_map_key {key : Nat} {l l2 : List Entry}
    (hmap : l2.map Entry.key = l.map Entry.key)
    (h : chainLookup key l = none) : chainLookup key l2 = none := by
  rw [chainLookup_eq_none] at h ⊢
  intro e he
  have : e.key ∈ l.map Entry.key := hmap ▸ List.mem_map_of_mem Entry.key he
  rcases List.mem_map.1 this with ⟨x, hx, hxe⟩
  exact hxe ▸ h x hx

/-! ### chainEraseAux and eraseP -/

theorem chainEraseAux_spec (key : Nat) (l : List Entry) :
    chainEraseAux key l =
      if l.any (fun e => e.key == key) then some (l.eraseP (fun e => e.key == key))
      else none := by
  induction l with
  | nil => rfl
  | cons a l ih =>
    by_cases h : a.key = key
    · simp [chainEraseAux, beq_iff_eq, h, List.eraseP_cons]
    · rw [chainEraseAux, if_neg (by simpa [beq_iff_eq] using h), ih]
      by_cases hany : l.any (fun e => e.key == key) = true
      · simp [hany, List.eraseP_cons, beq_iff_eq, h]
      · simp only [Bool.not_eq_true] at hany
        simp [hany, List.any_cons, beq_iff_eq, h]

theorem chainLookup_eraseP_ne {k k2 : Nat} (hne : k2 ≠ k) (l : List Entry) :
    chainLookup k2 (l.eraseP (fun e => e.key == k)) = chainLookup k2 l := by
  induction l with
  | nil => rfl
  | cons a l ih =>
    cases hak : a.key == k with
    | true =>
      have hk : a.key = k := by simpa [beq_iff_eq] using hak
      have hk2 : (a.key == k2) = false := by
        simp only [beq_eq_false_iff_ne, ne_eq, hk]
        exact fun hh => hne hh.symm
      simp [List.eraseP_cons, hak, chainLookup, hk2]
    | false =>
      simp only [List.eraseP_cons, hak, cond_false]
      cases hak2 : a.key == k2 with
      | true => simp [chainLookup, hak2]
      | false => simp [chainLookup, hak2, ih]

theorem chainLookup_eraseP_self {k : Nat} {l : List Entry}
    (hnd : (l.map Entry.key).Nodup) :
    chainLookup k (l.eraseP (fun e => e.key == k)) = none := by
  induction l with
  | nil => rfl
  | cons a l ih =>
    rw [List.map_cons, List.nodup_cons] at hnd
    cases hak : a.key == k with
    | true =>
      have hk : a.key = k := by simpa [beq_iff_eq] using hak
      simp only [List.eraseP_cons, hak, cond_true]
      rw [chainLookup_eq_none]
      intro e he heq
      apply hnd.1
      rw [hk, ← heq]
      exact List.mem_map_of_mem Entry.key he
    | false =>
      simp [List.eraseP_cons, hak, chainLookup, ih hnd.2]

/-! ### Characterisations of the table operations -/

theorem bucket_def (t : Hashtable) (k : Nat) : bucket t k = t.ht.getD (bIdx t k) [] := rfl

theorem lookup_def (t : Hashtable) (k : Nat) : t.lookup k = chainLookup k (bucket t k) := rfl

theorem bIdx_lt_of_bucket_ne_nil {t : Hashtable} {k : Nat} (h : bucket t k ≠ []) :
    bIdx t k < t.ht.length := by
  by_contra hle
  exact h (getD_of_len_le (Nat.le_of_not_lt hle))

theorem lookup_eq_none_iff {t : Hashtable} {k : Nat} :
    t.lookup k = none ↔ ∀ e ∈ bucket t k, e.key ≠ k :=
  chainLookup_eq_none

theorem erase_of_forall_ne {t : Hashtable} {k : Nat}
    (h : ∀ e ∈ bucket t k, e.key ≠ k) : t.erase k = (false, t) := by
  rcases hcase : bucket t k with - | ⟨a, rest⟩
  · simp [Hashtable.erase, hcase]
  · have ha : a.key ≠ k := h a (by rw [hcase]; simp)
    have hrest : chainEraseAux k rest = none := by
      rw [chainEraseAux_spec]
      have hany : rest.any (fun e => e.key == k) = false := by
        rw [List.any_eq_false]
        intro e he
        simp only [beq_iff_eq]
        exact h e (by rw [hcase]; exact List.mem_cons_of_mem _ he)
      simp [hany]
    have haB : (a.key == k) = false := by simpa [beq_eq_false_iff_ne] using ha
    simp [Hashtable.erase, hcase, haB, hrest]

theorem erase_of_mem {t : Hashtable} {k : Nat} {e : Entry}
    (hmem : e ∈ bucket t k) (hkey : e.key = k) :
    t.erase k =
      (true, { t with ht := t.ht.set (bIdx t k) ((bucket t k).eraseP (fun x => x.key == k)) }) := by
  rcases hcase : bucket t k with - | ⟨a, rest⟩
  · rw [hcase] at hmem; simp at hmem
  · by_cases ha : a.key = k
    · have haB : (a.key == k) = true := by simpa [beq_iff_eq] using ha
      simp [Hashtable.erase, hcase, haB, List.eraseP_cons]
    · have haB : (a.key == k) = false := by simpa [beq_eq_false_iff_ne] using ha
      have hmem2 : e ∈ rest := by
        rw [hcase] at hmem
        rcases List.mem_cons.1 hmem with h1 | h1
        · exact absurd (h1 ▸ hkey) ha
        · exact h1
      have hany : rest.any (fun x => x.key == k) = true :=
        List.any_eq_true.2 ⟨e, hmem2, by simpa [beq_iff_eq] using hkey⟩
      simp [Hashtable.erase, hcase, haB, hany, chainEraseAux_spec, List.eraseP_cons]

theorem insert_of_lookup_none {t : Hashtable} {k v : Nat} (h : t.lookup k = none) :
    t.insert k v =
      (true, { t with ht := t.ht.set (bIdx t k) ({ key := k, value := v } :: bucket t k) }) := by
  simp [Hashtable.insert, h]

theorem insert_of_lookup_some {t : Hashtable} {k v : Nat} {e : Entry} (h : t.lookup k = some e) :
    t.insert k v =
      (false, { t with ht := t.ht.set (bIdx t k) (chainUpdate k v (bucket t k)) }) := by
  simp [Hashtable.insert, h]

/-! ### The operations leave htSize, mask and the bucket count unchanged -/

theorem insert_htSize (t : Hashtable) (k v : Nat) : (t.insert k v).2.htSize = t.htSize := by
  rcases h : t.lookup k with - | e
  · rw [insert_of_lookup_none h]
  · rw [insert_of_lookup_some h]

theorem insert_mask (t : Hashtable) (k v : Nat) : (t.insert k v).2.mask = t.mask := by
  rcases h : t.lookup k with - | e
  · rw [insert_of_lookup_none h]
  · rw [insert_of_lookup_some h]

theorem insert_len (t : Hashtable) (k v : Nat) : (t.insert k v).2.ht.length = t.ht.length := by
  rcases h : t.lookup k with - | e
  · rw [insert_of_lookup_none h]; exact List.length_set ..
  · rw [insert_of_lookup_some h]; exact List.length_set ..

theorem erase_cases (t : Hashtable) (k : Nat) :
    t.erase k = (false, t) ∨
      t.erase k =
        (true, { t with ht := t.ht.set (bIdx t k) ((bucket t k).eraseP (fun x => x.key == k)) }) := by
  by_cases h : ∀ e ∈ bucket t k, e.key ≠ k
  · exact Or.inl (erase_of_forall_ne h)
  · push_neg at h
    rcases h with ⟨e, hmem, hkey⟩
    exact Or.inr (erase_of_mem hmem hkey)

theorem erase_htSize (t : Hashtable) (k : Nat) : (t.erase k).2.htSize = t.htSize := by
  rcases erase_cases t k with h | h <;> rw [h]

theorem erase_mask (t : Hashtable) (k : Nat) : (t.erase k).2.mask = t.mask := by
  rcases erase_cases t k with h | h <;> rw [h]

theorem erase_len (t : Hashtable) (k : Nat) : (t.erase k).2.ht.length = t.ht.length := by
  rcases erase_cases t k with h | h
  · rw [h]
  · rw [h]; exact List.length_set ..

theorem applyOp_htSize (t : Hashtable) (op : Op) : (applyOp t op).htSize = t.htSize := by
  cases op with
  | ins k v => exact insert_htSize t k v
  | get k => rfl
  | del k => exact erase_htSize t k

theorem applyOp_mask (t : Hashtable) (op : Op) : (applyOp t op).mask = t.mask := by
  cases op with
  | ins k v => exact insert_mask t k v
  | get k => rfl
  | del k => exact erase_mask t k

theorem applyOp_len (t : Hashtable) (op : Op) : (applyOp t op).ht.length = t.ht.length := by
  cases op with
  | ins k v => exact insert_len t k v
  | get k => rfl
  | del k => exact erase_len t k

theorem runOps_htSize (t : Hashtable) (ops : List Op) : (runOps t ops).htSize = t.htSize := by
  induction ops generalizing t with
  | nil => rfl
  | cons op ops ih =>
    show (runOps (applyOp t op) ops).htSize = t.htSize
    rw [ih, applyOp_htSize]

theorem runOps_mask (t : Hashtable) (ops : List Op) : (runOps t ops).mask = t.mask := by
  induction ops generalizing t with
  | nil => rfl
  | cons op ops ih =>
    show (runOps (applyOp t op) ops).mask = t.mask
    rw [ih, applyOp_mask]

theorem runOps_len (t : Hashtable) (ops : List Op) : (runOps t ops).ht.length = t.ht.length := by
  induction ops generalizing t with
  | nil => rfl
  | cons op ops ih =>
    show (runOps (applyOp t op) ops).ht.length = t.ht.length
    rw [ih, applyOp_len]

/-! ### Capacity arithmetic -/

theorem bitlen_zero (fuel : Nat) : bitlen fuel 0 = 0 := by
  cases fuel <;> simp [bitlen]

theorem bitlen_le (fuel n : Nat) : bitlen fuel n ≤ fuel := by
  induction fuel generalizing n with
  | zero => simp [bitlen]
  | succ fuel ih =>
    rw [bitlen]
    by_cases h : n = 0
    · simp [h]
    · simp only [h, if_false]
      exact Nat.succ_le_succ (ih (n / 2))

theorem bitlen_bounds (fuel n : Nat) (h1 : 0 < n) (h2 : n < 2 ^ fuel) :
    n < 2 ^ bitlen fuel n ∧ 2 ^ bitlen fuel n ≤ 2 * n := by
  induction fuel generalizing n with
  | zero => simp at h2; omega
  | succ fuel ih =>
    have hn0 : ¬ n = 0 := by omega
    rw [bitlen, if_neg hn0]
    by_cases hone : n = 1
    · subst hone
      simp [bitlen_zero]
    · have hhalf1 : 0 < n / 2 := by omega
      have hhalf2 : n / 2 < 2 ^ fuel := by
        rw [pow_succ] at h2
        omega
      obtain ⟨ha, hb⟩ := ih (n / 2) hhalf1 hhalf2
      rw [pow_succ]
      omega

theorem U64_val : U64 = 18446744073709551616 := by norm_num [U64]

theorem mk_htSize (s : Nat) (h1 : 0 < s) (h2 : s < 2 ^ 63) :
    (mkHashtable s).htSize = 2 ^ bitlen 64 s ∧
      s < 2 ^ bitlen 64 s ∧ 2 ^ bitlen 64 s ≤ 2 * s := by
  have hs64 : s < 2 ^ 64 := lt_trans h2 (by norm_num)
  obtain ⟨ha, hb⟩ := bitlen_bounds 64 s h1 hs64
  have hble : bitlen 64 s ≤ 63 := by
    by_contra hgt
    push_neg at hgt
    have hpow : (2 : Nat) ^ 64 ≤ 2 ^ bitlen 64 s := Nat.pow_le_pow_right (by norm_num) hgt
    have h64 : (2 : Nat) ^ 64 = 18446744073709551616 := by norm_num
    have h63 : (2 : Nat) ^ 63 = 9223372036854775808 := by norm_num
    omega
  have hshift : 64 - clz64 s = bitlen 64 s := by
    unfold clz64
    have := bitlen_le 64 s
    omega
  have hlt : 2 ^ bitlen 64 s < U64 := by
    have hle : (2 : Nat) ^ bitlen 64 s ≤ 2 ^ 63 := Nat.pow_le_pow_right (by norm_num) hble
    have h63 : (2 : Nat) ^ 63 = 9223372036854775808 := by norm_num
    rw [U64_val]
    omega
  refine ⟨?_, ha, hb⟩
  show (2 ^ (64 - clz64 s)) % U64 = 2 ^ bitlen 64 s
  rw [hshift, Nat.mod_eq_of_lt hlt]

theorem mk_mask (s : Nat) (h1 : 0 < s) (h2 : s < 2 ^ 63) :
    (mkHashtable s).mask = (mkHashtable s).htSize - 1 := by
  obtain ⟨heq, ha, hb⟩ := mk_htSize s h1 h2
  have hA1 : 0 < (mkHashtable s).htSize := by rw [heq]; positivity
  have hA2 : (mkHashtable s).htSize < U64 := by
    rw [heq, U64_val]
    have h63 : (2 : Nat) ^ 63 = 9223372036854775808 := by norm_num
    omega
  show ((mkHashtable s).htSize + (U64 - 1)) % U64 = (mkHashtable s).htSize - 1
  rw [U64_val] at *
  omega

theorem mk_len (s : Nat) : (mkHashtable s).ht.length = (mkHashtable s).htSize :=
  List.length_replicate ..

theorem mk_bucket (s i : Nat) : (mkHashtable s).ht.getD i [] = [] := getD_replicate

theorem htSize_min (s k : Nat) (h1 : 0 < s) (h2 : s < 2 ^ 63) (hk : s < 2 ^ k) :
    (mkHashtable s).htSize ≤ 2 ^ k := by
  obtain ⟨heq, ha, hb⟩ := mk_htSize s h1 h2
  rw [heq]
  have h2s : 2 * s < 2 ^ (k + 1) := by rw [pow_succ]; omega
  have hlt : 2 ^ bitlen 64 s < 2 ^ (k + 1) := lt_of_le_of_lt hb h2s
  have hbk : bitlen 64 s < k + 1 := (Nat.pow_lt_pow_iff_right (by norm_num)).1 hlt
  exact Nat.pow_le_pow_right (by norm_num) (by omega)

theorem htSize_of_pow2 (j : Nat) (h2 : 2 ^ j < 2 ^ 63) :
    (mkHashtable (2 ^ j)).htSize = 2 * 2 ^ j := by
  obtain ⟨heq, ha, hb⟩ := mk_htSize (2 ^ j) (by positivity) h2
  have hj1 : j < bitlen 64 (2 ^ j) := (Nat.pow_lt_pow_iff_right (by norm_num)).1 ha
  have hsucc : (2 : Nat) ^ (j + 1) = 2 * 2 ^ j := by rw [pow_succ]; ring
  have hj2 : bitlen 64 (2 ^ j) ≤ j + 1 := by
    have hb2 : (2 : Nat) ^ bitlen 64 (2 ^ j) ≤ 2 ^ (j + 1) := by rw [hsucc]; exact hb
    exact (Nat.pow_le_pow_iff_right (a := 2) (by norm_num)).1 hb2
  have hjeq : bitlen 64 (2 ^ j) = j + 1 := by omega
  rw [heq, hjeq, hsucc]

theorem mk_hi (s : Nat) (h1 : 2 ^ 63 ≤ s) (h2 : s < 2 ^ 64) :
    64 - clz64 s = 64 ∧ (mkHashtable s).htSize = 0 ∧ (mkHashtable s).mask = 2 ^ 64 - 1 := by
  obtain ⟨ha, hb⟩ := bitlen_bounds 64 s (lt_of_lt_of_le (by positivity : (0:Nat) < 2 ^ 63) h1) h2
  have hge : 64 ≤ bitlen 64 s := by
    by_contra hlt
    push_neg at hlt
    have hle : (2 : Nat) ^ bitlen 64 s ≤ 2 ^ 63 := Nat.pow_le_pow_right (by norm_num) (by omega)
    omega
  have hble : bitlen 64 s = 64 := le_antisymm (bitlen_le 64 s) hge
  have hshift : 64 - clz64 s = 64 := by
    unfold clz64
    omega
  refine ⟨hshift, ?_, ?_⟩
  · show (2 ^ (64 - clz64 s)) % U64 = 0
    rw [hshift, U64_val]
    norm_num
  · show ((2 ^ (64 - clz64 s)) % U64 + (U64 - 1)) % U64 = 2 ^ 64 - 1
    rw [hshift, U64_val]
    norm_num

/-! ### Table invariants -/

/-- The two structural invariants of the spec: chain locality
(`hash(entry.key) & mask == b` for every entry reachable from bucket `b`)
and pairwise-distinct keys inside every bucket. -/
@[reducible]
def Inv (t : Hashtable) : Prop :=
  (∀ b, b < t.ht.length → ∀ e ∈ t.ht.getD b [], hashKey e.key &&& t.mask = b) ∧
  (∀ b, b < t.ht.length → ((t.ht.getD b []).map Entry.key).Nodup)

/-- Well-formedness established by construction: bucket count, positive
capacity, the mask relation, and `Inv`. -/
@[reducible]
def Wf (t : Hashtable) : Prop :=
  t.ht.length = t.htSize ∧ 0 < t.htSize ∧ t.mask = t.htSize - 1 ∧ Inv t

theorem bIdx_lt_of_wf {t : Hashtable} (h : Wf t) (k : Nat) : bIdx t k < t.ht.length := by
  obtain ⟨hlen, hpos, hmask, -⟩ := h
  have h1 : hashKey k &&& t.mask ≤ t.mask := Nat.and_le_right
  show hashKey k &&& t.mask < t.ht.length
  omega

theorem bIdx_set (t : Hashtable) (i : Nat) (c : List Entry) (k : Nat) :
    bIdx { t with ht := t.ht.set i c } k = bIdx t k := rfl

theorem bucket_set (t : Hashtable) (i : Nat) (c : List Entry) (k : Nat) :
    bucket { t with ht := t.ht.set i c } k =
      if bIdx t k = i ∧ i < t.ht.length then c else bucket t k := by
  by_cases h1 : bIdx t k = i
  · by_cases h2 : i < t.ht.length
    · show (t.ht.set i c).getD (bIdx t k) [] = _
      rw [h1, getD_set_self h2]
      simp [h1, h2]
    · have hlen : t.ht.length ≤ i := Nat.le_of_not_lt h2
      have e1 : (t.ht.set i c).getD i [] = [] :=
        getD_of_len_le (by rw [List.length_set]; exact hlen)
      have e2 : t.ht.getD i [] = [] := getD_of_len_le hlen
      show (t.ht.set i c).getD (bIdx t k) [] = _
      rw [h1, e1]
      simp only [h1, h2, and_false, if_false]
      rw [bucket_def, h1, e2]
  · show (t.ht.set i c).getD (bIdx t k) [] = _
    rw [getD_set_ne (fun hh => h1 hh.symm)]
    simp [h1, bucket_def]

theorem lookup_set (t : Hashtable) (i : Nat) (c : List Entry) (k : Nat) :
    ({ t with ht := t.ht.set i c } : Hashtable).lookup k =
      if bIdx t k = i ∧ i < t.ht.length then chainLookup k c else t.lookup k := by
  rw [lookup_def, bucket_set]
  by_cases h : bIdx t k = i ∧ i < t.ht.length
  · simp [h]
  · simp [h, lookup_def]

theorem lookup_mk (s k : Nat) : (mkHashtable s).lookup k = none := by
  rw [lookup_def, bucket_def, mk_bucket]
  rfl

theorem inv_mk (s : Nat) : Inv (mkHashtable s) := by
  constructor
  · intro b hb e he
    rw [mk_bucket] at he
    simp at he
  · intro b hb
    rw [mk_bucket]
    simp

theorem wf_mk (s : Nat) (h1 : 0 < s) (h2 : s < 2 ^ 63) : Wf (mkHashtable s) := by
  obtain ⟨heq, ha, hb⟩ := mk_htSize s h1 h2
  refine ⟨mk_len s, ?_, mk_mask s h1 h2, inv_mk s⟩
  rw [heq]
  positivity

theorem inv_insert {t : Hashtable} (h : Inv t) (k v : Nat) : Inv (t.insert k v).2 := by
  rcases hl : t.lookup k with - | e
  · rw [insert_of_lookup_none hl]
    constructor
    · intro b hb e2 he2
      rw [List.length_set] at hb
      by_cases hbi : b = bIdx t k
      · subst hbi
        rw [getD_set_self hb] at he2
        rcases List.mem_cons.1 he2 with he2 | he2
        · subst he2
          rfl
        · exact h.1 _ hb e2 he2
      · rw [getD_set_ne (fun hh => hbi hh.symm)] at he2
        exact h.1 b hb e2 he2
    · intro b hb
      rw [List.length_set] at hb
      by_cases hbi : b = bIdx t k
      · subst hbi
        rw [getD_set_self hb]
        rw [List.map_cons, List.nodup_cons]
        refine ⟨?_, h.2 _ hb⟩
        intro hmem
        rcases List.mem_map.1 hmem with ⟨x, hx, hxk⟩
        exact lookup_eq_none_iff.1 hl x hx hxk
      · rw [getD_set_ne (fun hh => hbi hh.symm)]
        exact h.2 b hb
  · rw [insert_of_lookup_some hl]
    constructor
    · intro b hb e2 he2
      rw [List.length_set] at hb
      by_cases hbi : b = bIdx t k
      · subst hbi
        rw [getD_set_self hb] at he2
        have hkmem : e2.key ∈ (bucket t k).map Entry.key := by
          rw [← @chainUpdate_map_key k v (bucket t k)]
          exact List.mem_map_of_mem Entry.key he2
        rcases List.mem_map.1 hkmem with ⟨x, hx, hxk⟩
        rw [← hxk]
        exact h.1 _ hb x hx
      · rw [getD_set_ne (fun hh => hbi hh.symm)] at he2
        exact h.1 b hb e2 he2
    · intro b hb
      rw [List.length_set] at hb
      by_cases hbi : b = bIdx t k
      · subst hbi
        rw [getD_set_self hb, chainUpdate_map_key]
        exact h.2 _ hb
      · rw [getD_set_ne (fun hh => hbi hh.symm)]
        exact h.2 b hb

theorem inv_erase {t : Hashtable} (h : Inv t) (k : Nat) : Inv (t.erase k).2 := by
  rcases erase_cases t k with hcase | hcase
  · rw [hcase]
    exact h
  · rw [hcase]
    constructor
    · intro b hb e2 he2
      rw [List.length_set] at hb
      by_cases hbi : b = bIdx t k
      · subst hbi
        rw [getD_set_self hb] at he2
        exact h.1 _ hb e2 ((List.eraseP_sublist _).subset he2)
      · rw [getD_set_ne (fun hh => hbi hh.symm)] at he2
        exact h.1 b hb e2 he2
    · intro b hb
      rw [List.length_set] at hb
      by_cases hbi : b = bIdx t k
      · subst hbi
        rw [getD_set_self hb]
        exact ((List.eraseP_sublist _).map Entry.key).nodup (h.2 _ hb)
      · rw [getD_set_ne (fun hh => hbi hh.symm)]
        exact h.2 b hb

theorem inv_applyOp {t : Hashtable} (h : Inv t) (op : Op) : Inv (applyOp t op) := by
  cases op with
  | ins k v => exact inv_insert h k v
  | get k => exact h
  | del k => exact inv_erase h k

theorem inv_runOps {t : Hashtable} (h : Inv t) (ops : List Op) : Inv (runOps t ops) := by
  induction ops generalizing t with
  | nil => exact h
  | cons op ops ih => exact ih (inv_applyOp h op)

/-- From the per-bucket invariants: the keys of all live entries in the
whole table are pairwise distinct. -/
theorem inv_global_nodup {t : Hashtable} (h : Inv t) :
    (t.ht.flatten.map Entry.key).Nodup := by
  rw [List.map_flatten, List.nodup_flatten]
  constructor
  · intro l hl
    rcases List.mem_map.1 hl with ⟨c, hc, rfl⟩
    rcases List.mem_iff_get.1 hc with ⟨⟨b, hb⟩, rfl⟩
    rw [← getD_eq_get hb]
    exact h.2 b hb
  · rw [List.pairwise_map, List.pairwise_iff_get]
    intro i j hij x hxi hxj
    rcases List.mem_map.1 hxi with ⟨e1, he1, hk1⟩
    rcases List.mem_map.1 hxj with ⟨e2, he2, hk2⟩
    have hb1 : hashKey e1.key &&& t.mask = i.1 := by
      apply h.1 i.1 i.2
      rw [getD_eq_get i.2]
      exact he1
    have hb2 : hashKey e2.key &&& t.mask = j.1 := by
      apply h.1 j.1 j.2
      rw [getD_eq_get j.2]
      exact he2
    have : i.1 = j.1 := by rw [← hb1, ← hb2, hk1, hk2]
    omega

/-! ### Preservation of key absence (never-inserted keys stay absent) -/

theorem lookup_none_applyOp {t : Hashtable} {k : Nat} {op : Op}
    (h : t.lookup k = none) (hop : opInsertsKey k op = false) :
    (applyOp t op).lookup k = none := by
  cases op with
  | get k2 => exact h
  | ins k2 v =>
    have hne : k2 ≠ k := by simpa [opInsertsKey, beq_eq_false_iff_ne] using hop
    show ((t.insert k2 v).2).lookup k = none
    rcases hl : t.lookup k2 with - | e
    · rw [insert_of_lookup_none hl]
      rw [lookup_set]
      by_cases hcond : bIdx t k = bIdx t k2 ∧ bIdx t k2 < t.ht.length
      · rw [if_pos hcond, chainLookup,
          if_neg (by simpa [beq_eq_false_iff_ne] using hne)]
        have hbeq : bucket t k2 = bucket t k := by rw [bucket_def, bucket_def, hcond.1]
        rw [hbeq, ← lookup_def]
        exact h
      · rw [if_neg hcond]
        exact h
    · rw [insert_of_lookup_some hl]
      rw [lookup_set]
      by_cases hcond : bIdx t k = bIdx t k2 ∧ bIdx t k2 < t.ht.length
      · rw [if_pos hcond]
        have hbeq : bucket t k2 = bucket t k := by rw [bucket_def, bucket_def, hcond.1]
        apply chainLookup_eq_none_of_map_key (chainUpdate_map_key)
        rw [hbeq, ← lookup_def]
        exact h
      · rw [if_neg hcond]
        exact h
  | del k2 =>
    show ((t.erase k2).2).lookup k = none
    rcases erase_cases t k2 with hcase | hcase
    · rw [hcase]
      exact h
    · rw [hcase]
      rw [lookup_set]
      by_cases hcond : bIdx t k = bIdx t k2 ∧ bIdx t k2 < t.ht.length
      · rw [if_pos hcond]
        rw [chainLookup_eq_none]
        intro e2 he2
        have hbeq : bucket t k2 = bucket t k := by rw [bucket_def, bucket_def, hcond.1]
        apply chainLookup_eq_none.1 h
        rw [← hbeq]
        exact (List.eraseP_sublist _).subset he2
      · rw [if_neg hcond]
        exact h

theorem lookup_none_runOps {t : Hashtable} {k : Nat} {ops : List Op}
    (h : t.lookup k = none) (hops : ∀ op ∈ ops, opInsertsKey k op = false) :
    (runOps t ops).lookup k = none := by
  induction ops generalizing t with
  | nil => exact h
  | cons op ops ih =>
    show (runOps (applyOp t op) ops).lookup k = none
    exact ih (lookup_none_applyOp h (hops op (by simp))) (fun o ho => hops o (by simp [ho]))

/-! ### Claim theorems -/

/-- C1 (counterexample): at requested size 16 the claim fails — 16 is itself
a power of two, so the smallest power of two ≥ 16 is 16, yet the constructor
sets capacity to 32. -/
theorem C1_counterexample : (16 : Nat) = 2 ^ 4 ∧ (mkHashtable 16).htSize = 32 := by
  constructor
  · rfl
  · decide

/-- C1 (amended): for every requested size s with 1 ≤ s < 2 ^ 63,
construction sets capacity to the smallest power of two STRICTLY greater
than s, and mask = capacity − 1. -/
theorem C1_amended (s : Nat) (h1 : 0 < s) (h2 : s < 2 ^ 63) :
    (∃ j, (mkHashtable s).htSize = 2 ^ j) ∧
      s < (mkHashtable s).htSize ∧
      (∀ k, s < 2 ^ k → (mkHashtable s).htSize ≤ 2 ^ k) ∧
      (mkHashtable s).mask = (mkHashtable s).htSize - 1 := by
  obtain ⟨heq, ha, hb⟩ := mk_htSize s h1 h2
  exact ⟨⟨bitlen 64 s, heq⟩, heq ▸ ha, fun k hk => htSize_min s k h1 h2 hk, mk_mask s h1 h2⟩

/-- Witness for C1 (amended) at s = 10: capacity strictly exceeds 10 and
mask = capacity − 1. -/
theorem C1_amended_witness :
    10 < (mkHashtable 10).htSize ∧ (mkHashtable 10).mask = (mkHashtable 10).htSize - 1 :=
  ⟨(C1_amended 10 (by decide) (by decide)).2.1, (C1_amended 10 (by decide) (by decide)).2.2.2⟩

/-- C2: with the table well-formed, erase of a present key returns true,
removes exactly the first (under `Wf` the unique) matching entry of its
bucket — the `eraseP` equation covers the head-match and interior/tail-match
relinking cases at once, and the empty-bucket and exhausted-walk cases return
false with the table untouched — after which lookup of that key is absent and
an immediate second erase returns false. -/
theorem C2_erase (t : Hashtable) (k : Nat) (hwf : Wf t) :
    (bucket t k = [] → t.erase k = (false, t)) ∧
    (t.lookup k = none → t.erase k = (false, t)) ∧
    (∀ e, t.lookup k = some e →
      (t.erase k).1 = true ∧
      (t.erase k).2.ht = t.ht.set (bIdx t k) ((bucket t k).eraseP (fun x => x.key == k)) ∧
      (t.erase k).2.lookup k = none ∧
      ((t.erase k).2.erase k).1 = false) := by
  refine ⟨?_, ?_, ?_⟩
  · intro hnil
    apply erase_of_forall_ne
    rw [hnil]
    intro e he
    cases he
  · intro h
    exact erase_of_forall_ne (lookup_eq_none_iff.1 h)
  · intro e h
    have hmem : e ∈ bucket t k := chainLookup_mem h
    have hkey : e.key = k := chainLookup_key h
    have herase := erase_of_mem hmem hkey
    have hlt : bIdx t k < t.ht.length := by
      apply bIdx_lt_of_bucket_ne_nil
      intro hnil
      rw [lookup_def, hnil] at h
      cases h
    have hnone : (t.erase k).2.lookup k = none := by
      rw [herase]
      rw [lookup_set, if_pos ⟨rfl, hlt⟩]
      exact chainLookup_eraseP_self ((hwf.2.2.2).2 (bIdx t k) hlt)
    refine ⟨by rw [herase], by rw [herase], hnone, ?_⟩
    rw [erase_of_forall_ne (lookup_eq_none_iff.1 hnone)]

/-- Witness for C2 at a concrete table holding key 5: erase returns true and
the key is then absent. -/
theorem C2_witness :
    ((((mkHashtable 2).insert 5 7).2).erase 5).1 = true ∧
      ((((mkHashtable 2).insert 5 7).2).erase 5).2.lookup 5 = none :=
  ⟨((C2_erase (((mkHashtable 2).insert 5 7).2) 5 (by decide)).2.2 ⟨5, 7⟩ (by decide)).1,
    ((C2_erase (((mkHashtable 2).insert 5 7).2) 5 (by decide)).2.2 ⟨5, 7⟩ (by decide)).2.2.1⟩

/-- C3: inserting a key not present returns true, links the new entry as the
new head of bucket `hash(k) & mask` with its tail the previous head, leaves
every other bucket untouched, and lookup afterwards returns the new entry. -/
theorem C3_insert_fresh (t : Hashtable) (k v : Nat) (hwf : Wf t) (h : t.lookup k = none) :
    (t.insert k v).1 = true ∧
    (t.insert k v).2.ht = t.ht.set (bIdx t k) ({ key := k, value := v } :: bucket t k) ∧
    (∀ j, j ≠ bIdx t k → (t.insert k v).2.ht.getD j [] = t.ht.getD j []) ∧
    (t.insert k v).2.lookup k = some { key := k, value := v } := by
  rw [insert_of_lookup_none h]
  refine ⟨rfl, rfl, ?_, ?_⟩
  · intro j hj
    exact getD_set_ne (fun hh => hj hh.symm)
  · show ({ t with ht := t.ht.set (bIdx t k) ({ key := k, value := v } :: bucket t k) } :
        Hashtable).lookup k = some { key := k, value := v }
    rw [lookup_set, if_pos ⟨rfl, bIdx_lt_of_wf hwf k⟩, chainLookup, if_pos (by simp)]

/-- Witness for C3 on a fresh table: inserting key 3 returns true and lookup
finds it. -/
theorem C3_witness :
    ((mkHashtable 2).insert 3 9).1 = true ∧
      ((mkHashtable 2).insert 3 9).2.lookup 3 = some { key := 3, value := 9 } :=
  ⟨(C3_insert_fresh (mkHashtable 2) 3 9 (by decide) (by decide)).1,
    (C3_insert_fresh (mkHashtable 2) 3 9 (by decide) (by decide)).2.2.2⟩

/-- C4: inserting an already-present key returns false, overwrites the value
of the matching entry in place (lookup then returns the new value), keeps the
bucket's key sequence unchanged (no new entry, no reordering), and leaves
every other bucket untouched. -/
theorem C4_insert_existing (t : Hashtable) (k v2 : Nat) (e : Entry)
    (h : t.lookup k = some e) :
    (t.insert k v2).1 = false ∧
    (t.insert k v2).2.lookup k = some { key := k, value := v2 } ∧
    ((t.insert k v2).2.ht.getD (bIdx t k) []).map Entry.key = (bucket t k).map Entry.key ∧
    (∀ j, j ≠ bIdx t k → (t.insert k v2).2.ht.getD j [] = t.ht.getD j []) := by
  have hkey : e.key = k := chainLookup_key h
  have hlt : bIdx t k < t.ht.length := by
    apply bIdx_lt_of_bucket_ne_nil
    intro hnil
    rw [lookup_def, hnil] at h
    cases h
  rw [insert_of_lookup_some h]
  refine ⟨rfl, ?_, ?_, ?_⟩
  · show ({ t with ht := t.ht.set (bIdx t k) (chainUpdate k v2 (bucket t k)) } :
        Hashtable).lookup k = some { key := k, value := v2 }
    rw [lookup_set, if_pos ⟨rfl, hlt⟩]
    have hupd := chainLookup_chainUpdate_self (v := v2) h
    rw [hkey] at hupd
    exact hupd
  · show ((t.ht.set (bIdx t k) (chainUpdate k v2 (bucket t k))).getD (bIdx t k) []).map
        Entry.key = (bucket t k).map Entry.key
    rw [getD_set_self hlt, chainUpdate_map_key]
  · intro j hj
    exact getD_set_ne (fun hh => hj hh.symm)

/-- Witness for C4: re-inserting key 5 with value 11 returns false and lookup
then yields 11. -/
theorem C4_witness :
    ((((mkHashtable 2).insert 5 7).2).insert 5 11).1 = false ∧
      ((((mkHashtable 2).insert 5 7).2).insert 5 11).2.lookup 5 =
        some { key := 5, value := 11 } :=
  ⟨(C4_insert_existing (((mkHashtable 2).insert 5 7).2) 5 11 ⟨5, 7⟩ (by decide)).1,
    (C4_insert_existing (((mkHashtable 2).insert 5 7).2) 5 11 ⟨5, 7⟩ (by decide)).2.1⟩

/-- C5: lookup walks the bucket of `hash(k) & mask` head-to-tail and returns
the first entry with key k (characterised by the decomposition with a
match-free front segment), is absent iff no chain entry matches, is absent on
a freshly constructed table, and stays absent over any operation sequence
that never inserts k; lookup itself is a pure function of the table state. -/
theorem C5_lookup (t : Hashtable) (k : Nat) (e : Entry) (s : Nat) (ops : List Op) :
    (t.lookup k = some e ↔
      e.key = k ∧ ∃ l1 l2, bucket t k = l1 ++ e :: l2 ∧ ∀ x ∈ l1, x.key ≠ k) ∧
    (t.lookup k = none ↔ ∀ x ∈ bucket t k, x.key ≠ k) ∧
    ((mkHashtable s).lookup k = none) ∧
    ((∀ op ∈ ops, opInsertsKey k op = false) → (runOps (mkHashtable s) ops).lookup k = none) := by
  refine ⟨?_, lookup_eq_none_iff, lookup_mk s k, ?_⟩
  · rw [lookup_def]
    exact chainLookup_eq_some
  · intro hops
    exact lookup_none_runOps (lookup_mk s k) hops

/-- Witness for C5: key 7, never inserted by the operation sequence, is
absent afterwards. -/
theorem C5_witness :
    (runOps (mkHashtable 2) [Op.ins 1 2, Op.del 1]).lookup 7 = none :=
  (C5_lookup (mkHashtable 2) 7 ⟨0, 0⟩ 2 [Op.ins 1 2, Op.del 1]).2.2.2 (by decide)

/-- C6: erasing key k never changes the lookup result of a different key k2,
whether k2 lives in the same bucket or another one. -/
theorem C6_frame (t : Hashtable) (k k2 : Nat) (hne : k2 ≠ k) :
    ((t.erase k).2).lookup k2 = t.lookup k2 := by
  rcases erase_cases t k with hcase | hcase
  · rw [hcase]
  · rw [hcase, lookup_set]
    by_cases hcond : bIdx t k2 = bIdx t k ∧ bIdx t k < t.ht.length
    · rw [if_pos hcond, chainLookup_eraseP_ne hne]
      have hbeq : bucket t k = bucket t k2 := by rw [bucket_def, bucket_def, hcond.1]
      rw [hbeq, ← lookup_def]
    · rw [if_neg hcond]

/-- Witness for C6: erasing key 5 leaves the lookup of key 6 unchanged. -/
theorem C6_witness :
    ((((mkHashtable 2).insert 5 7).2).erase 5).2.lookup 6 =
      (((mkHashtable 2).insert 5 7).2).lookup 6 :=
  C6_frame (((mkHashtable 2).insert 5 7).2) 5 6 (by decide)

/-- C7: starting from any constructed table, every sequence of insert,
lookup and erase operations preserves the two invariants: the keys of all
live entries in the whole table are pairwise distinct, and every entry
reachable from bucket b satisfies `hash(entry.key) & mask == b`. -/
theorem C7_invariants (s : Nat) (ops : List Op) :
    ((runOps (mkHashtable s) ops).ht.flatten.map Entry.key).Nodup ∧
    (∀ b, b < (runOps (mkHashtable s) ops).ht.length →
      ∀ e ∈ (runOps (mkHashtable s) ops).ht.getD b [],
        hashKey e.key &&& (runOps (mkHashtable s) ops).mask = b) := by
  have hinv : Inv (runOps (mkHashtable s) ops) := inv_runOps (inv_mk s) ops
  exact ⟨inv_global_nodup hinv, hinv.1⟩

/-- C8 (counterexample): at requested size 2 ^ 63 the modelled construction
yields capacity 0 — not a power of two — with mask 2 ^ 64 − 1, and the bucket
index of key 0 is not below capacity, so the claim fails as stated for that
constructed table. -/
theorem C8_counterexample :
    (mkHashtable (2 ^ 63)).htSize = 0 ∧
      (mkHashtable (2 ^ 63)).mask = 2 ^ 64 - 1 ∧
      ¬ bIdx (mkHashtable (2 ^ 63)) 0 < (mkHashtable (2 ^ 63)).htSize := by
  refine ⟨by decide, by decide, by decide⟩

/-- C8 (amended to construction sizes 1 ≤ s < 2 ^ 63): after any sequence of
operations, capacity is a power of two, mask = capacity − 1, the bucket array
has exactly capacity buckets, and the bucket index of every key is in
[0, capacity). -/
theorem C8_amended (s : Nat) (ops : List Op) (h1 : 0 < s) (h2 : s < 2 ^ 63) :
    (∃ j, (runOps (mkHashtable s) ops).htSize = 2 ^ j) ∧
    (runOps (mkHashtable s) ops).mask = (runOps (mkHashtable s) ops).htSize - 1 ∧
    (runOps (mkHashtable s) ops).ht.length = (runOps (mkHashtable s) ops).htSize ∧
    (∀ key, bIdx (runOps (mkHashtable s) ops) key < (runOps (mkHashtable s) ops).htSize) := by
  obtain ⟨heq, ha, hb⟩ := mk_htSize s h1 h2
  have hS : (runOps (mkHashtable s) ops).htSize = 2 ^ bitlen 64 s := by
    rw [runOps_htSize, heq]
  have hM : (runOps (mkHashtable s) ops).mask = (runOps (mkHashtable s) ops).htSize - 1 := by
    rw [runOps_mask, runOps_htSize]
    exact mk_mask s h1 h2
  have hL : (runOps (mkHashtable s) ops).ht.length = (runOps (mkHashtable s) ops).htSize := by
    rw [runOps_len, runOps_htSize, mk_len]
  refine ⟨⟨bitlen 64 s, hS⟩, hM, hL, ?_⟩
  intro key
  have hand : hashKey key &&& (runOps (mkHashtable s) ops).mask ≤
      (runOps (mkHashtable s) ops).mask := Nat.and_le_right
  have hpos : 0 < (runOps (mkHashtable s) ops).htSize := by
    rw [hS]
    positivity
  show hashKey key &&& (runOps (mkHashtable s) ops).mask < (runOps (mkHashtable s) ops).htSize
  omega

/-- Witness for C8 (amended) at s = 2 with no operations and key 0. -/
theorem C8_witness :
    bIdx (runOps (mkHashtable 2) []) 0 < (runOps (mkHashtable 2) []).htSize :=
  (C8_amended 2 [] (by decide) (by decide)).2.2.2 0

/-- C9: an erase that returns false leaves the table exactly as it was, and
a lookup (the `Op.get` step of the driver model) never changes the table
state; insert and erase always complete their effect in one step, so there
are no partial-failure states. -/
theorem C9_atomicity (t : Hashtable) (k : Nat) :
    ((t.erase k).1 = false → (t.erase k).2 = t) ∧ applyOp t (Op.get k) = t := by
  refine ⟨?_, rfl⟩
  intro hf
  rcases erase_cases t k with hcase | hcase
  · rw [hcase]
  · rw [hcase] at hf
    cases hf

/-- Witness for C9: erasing from an empty table returns false and leaves the
table unchanged. -/
theorem C9_witness : ((mkHashtable 1).erase 0).2 = mkHashtable 1 :=
  (C9_atomicity (mkHashtable 1) 0).1 (by decide)

/-- C10: for 1 ≤ s < 2 ^ 63 the capacity is 2 raised to the bit length of s,
i.e. the smallest power of two strictly greater than s (so a power-of-two
size s gets 2·s buckets); for 2 ^ 63 ≤ s < 2 ^ 64 the shift amount is 64 and,
with the shift modelled modulo 2 ^ 64, capacity is 0 and mask is 2 ^ 64 − 1. -/
theorem C10_construction (s : Nat) :
    (0 < s → s < 2 ^ 63 →
      (mkHashtable s).htSize = 2 ^ bitlen 64 s ∧
      s < (mkHashtable s).htSize ∧
      (∀ k, s < 2 ^ k → (mkHashtable s).htSize ≤ 2 ^ k) ∧
      (∀ j, s = 2 ^ j → (mkHashtable s).htSize = 2 * s)) ∧
    (2 ^ 63 ≤ s → s < 2 ^ 64 →
      64 - clz64 s = 64 ∧ (mkHashtable s).htSize = 0 ∧
      (mkHashtable s).mask = 2 ^ 64 - 1) := by
  constructor
  · intro h1 h2
    obtain ⟨heq, ha, hb⟩ := mk_htSize s h1 h2
    refine ⟨heq, heq ▸ ha, fun k hk => htSize_min s k h1 h2 hk, ?_⟩
    rintro j rfl
    exact htSize_of_pow2 j h2
  · intro h1 h2
    exact mk_hi s h1 h2

/-- Witness for C10 at both branches: size 4 (a power of two) doubles to 8,
and size 2 ^ 63 collapses to capacity 0. -/
theorem C10_witness :
    (mkHashtable 4).htSize = 8 ∧ (mkHashtable (2 ^ 63)).htSize = 0 := by
  constructor
  · have h := ((C10_construction 4).1 (by decide) (by decide)).2.2.2 2 (by decide)
    simpa using h
  · exact ((C10_construction (2 ^ 63)).2 (by decide) (by decide)).2.1

end BuggyHT
